import Mathlib

/-!
# Verification of the speculos device manager / app-candidate resolver

This file is a shallow embedding, in Lean 4, of the speculos testing
framework module (`src/unnamed/part_000` of the repository): port
allocation, the device registry with its `destroy` teardown, the
app-candidate directory scanner (`listAppCandidates`), the malformed
version repair (`hackBadSemver`), the candidate matcher
(`appCandidatesMatches` / `findAppCandidate`), the query string analysis
(`eatDevice` / `parseAppSearch`), the docker spawn argument construction
of `createSpeculosDevice`, and the transport module dispatch
(`registerTransportModule`).

The source is JavaScript; strings are modelled as Lean `String` values
and, where the source applies `String.prototype.split` and friends, we
work on the underlying `List Char` (the strings involved are ASCII).
The npm `semver` library, an external dependency of the source, is
modelled from its documented grammar and algorithms (`semver.valid`,
`semver.compare`, `semver.satisfies`); the range grammar is modelled for
the constructs this repository exercises (plain versions, primitive
comparators, tilde, caret, x-ranges, space-conjunction and
double-bar-disjunction); unsupported range forms parse to `none`, which
`satisfies` treats as an unsatisfiable range, matching
`semver.satisfies` returning `false` on ranges it cannot parse.
-/

/-! ## Character-list utilities

These model the JavaScript string primitives used by the source:
`String.prototype.split` with a one-character separator, `Array.join`,
`String.prototype.slice`, and `String.prototype.toLowerCase` (on ASCII
data). -/

/-- Model of JavaScript `str.split(sep)` for a one-character separator,
acting on the character list: the (possibly empty) segments between
occurrences of `c`.  As in JavaScript, the empty string splits to a
single empty segment. -/
def splitOnListChar (c : Char) : List Char → List (List Char)
  | [] => [[]]
  | x :: xs =>
    match splitOnListChar c xs with
    | g :: gs => if x = c then [] :: g :: gs else (x :: g) :: gs
    | [] => [[x]]

/-- Model of JavaScript `parts.join(sep)` for a one-character separator. -/
def joinWithChar (c : Char) : List (List Char) → List Char
  | [] => []
  | [g] => g
  | g :: gs => g ++ c :: joinWithChar c gs

/-- Split a character list at the first occurrence of `c`: the part
before it, and, when `c` occurs, the part after it. -/
def splitAtFirstChar (c : Char) : List Char → List Char × Option (List Char)
  | [] => ([], none)
  | x :: xs =>
    if x = c then ([], some xs)
    else
      match splitAtFirstChar c xs with
      | (l, r) => (x :: l, r)

/-- Model of JavaScript `str.slice(a, b)` (for `0 ≤ a`, `0 ≤ b`) on a
character list. -/
def sliceList (a b : Nat) (l : List Char) : List Char := (l.take b).drop a

/-- ASCII lower-casing of one character, as `String.prototype.toLowerCase`
acts on the ASCII range. -/
def lowerChar (c : Char) : Char :=
  if 'A' ≤ c ∧ c ≤ 'Z' then Char.ofNat (c.toNat + 32) else c

/-- Model of JavaScript `str.toLowerCase()` on ASCII data. -/
def lowerStr (s : String) : String := ⟨s.data.map lowerChar⟩

/-- Model of JavaScript `str.startsWith(p)`. -/
def strStartsWith (s p : String) : Bool := List.isPrefixOf p.data s.data

/-- Model of JavaScript `str.endsWith(p)`. -/
def strEndsWith (s p : String) : Bool := List.isSuffixOf p.data s.data

/-- Model of POSIX `path.join(a, b)` for the plain relative path
segments produced by the scanner (no normalization cases arise). -/
def pathJoin (a b : String) : String := a ++ "/" ++ b

/-! ## Model of the npm `semver` package

`SemV` is a parsed semantic version (the `build` part is not recorded:
it never takes part in validity-sensitive choices of the source and is
ignored by `semver.compare`; its well-formedness is still checked by
`parseSemV`). -/

/-- Value of a decimal digit string (JavaScript `+str` on digit data). -/
def charsToNat (l : List Char) : Nat :=
  l.foldl (fun n c => n * 10 + (c.toNat - 48)) 0

/-- A character allowed in semver prerelease/build identifiers. -/
def isIdentChar (c : Char) : Bool := c.isAlpha || c.isDigit || c = '-'

/-- A semver numeric identifier: nonempty digits with no leading zero
(grammar `0|[1-9]\d*`). -/
def numericIdent (l : List Char) : Bool :=
  !l.isEmpty && l.all (·.isDigit) && (l.length == 1 || l.head? != some '0')

/-- A semver prerelease identifier (grammar
`0|[1-9]\d*|\d*[a-zA-Z-][a-zA-Z\d-]*`): nonempty, alphanumeric/hyphen,
and, when it is all digits, free of leading zeros. -/
def prereleaseIdent (l : List Char) : Bool :=
  !l.isEmpty && l.all isIdentChar && (!l.all (·.isDigit) || numericIdent l)

/-- A semver build identifier (grammar `[0-9a-zA-Z-]+`). -/
def buildIdent (l : List Char) : Bool := !l.isEmpty && l.all isIdentChar

/-- A parsed semantic version: the numeric triple and the (possibly
empty) list of prerelease identifiers. -/
structure SemV where
  major : Nat
  minor : Nat
  patch : Nat
  pre : List (List Char)
deriving DecidableEq, Repr

/-- Parse a semantic version, following the npm `semver` full grammar:
`x.y.z` numeric identifiers, optional `-` prerelease (dot-separated
prerelease identifiers), optional `+` build (dot-separated build
identifiers).  Returns `none` exactly when `new SemVer(str)` would
throw (`semver.valid` would be `null`). -/
def parseSemV (l : List Char) : Option SemV :=
  let (core, build) := splitAtFirstChar '+' l
  let (main, pre) := splitAtFirstChar '-' core
  let buildOk := match build with
    | none => true
    | some b => (splitOnListChar '.' b).all buildIdent
  let preList := match pre with
    | none => some []
    | some p =>
      let ids := splitOnListChar '.' p
      if ids.all prereleaseIdent then some ids else none
  match splitOnListChar '.' main, preList, buildOk with
  | [a, b, c], some ids, true =>
    if numericIdent a && numericIdent b && numericIdent c then
      some ⟨charsToNat a, charsToNat b, charsToNat c, ids⟩
    else none
  | _, _, _ => none

/-- Model of `semver.valid(str) !== null`. -/
def semverValid (s : String) : Bool := (parseSemV s.data).isSome

/-- Three-way comparison of naturals (used to model the numeric
comparisons inside `semver.compare`). -/
def cmpNat (a b : Nat) : Ordering :=
  if a < b then .lt else if b < a then .gt else .eq

/-- Lexicographic lifting of a three-way comparison to lists, a shorter
list comparing less than its extensions (shared shape of npm semver's
prerelease-list walk and of JavaScript string comparison). -/
def cmpLex (f : α → α → Ordering) : List α → List α → Ordering
  | [], [] => .eq
  | [], _ :: _ => .lt
  | _ :: _, [] => .gt
  | a :: as, b :: bs =>
    match f a b with
    | .eq => cmpLex f as bs
    | o => o

/-- Comparison of two characters by code point (JavaScript `<` on
one-character strings). -/
def cmpChar (a b : Char) : Ordering := cmpNat a.toNat b.toNat

/-- Model of npm semver `compareIdentifiers`: numeric identifiers
compare as numbers and come before alphanumeric ones; alphanumeric
identifiers compare as JavaScript strings. -/
def cmpIdent (a b : List Char) : Ordering :=
  if a.all (·.isDigit) then
    if b.all (·.isDigit) then cmpNat (charsToNat a) (charsToNat b) else .lt
  else
    if b.all (·.isDigit) then .gt else cmpLex cmpChar a b

/-- Model of npm semver prerelease comparison on two nonempty
prerelease lists (the identifier-by-identifier walk). -/
def cmpPreList : List (List Char) → List (List Char) → Ordering :=
  cmpLex cmpIdent

/-- Model of npm semver prerelease comparison: a version with a
prerelease comes before the same version without one. -/
def cmpPre (a b : List (List Char)) : Ordering :=
  match a.isEmpty, b.isEmpty with
  | true, true => .eq
  | true, false => .gt
  | false, true => .lt
  | false, false => cmpPreList a b

/-- Model of `semver.compare` on parsed versions: the numeric triple
lexicographically, then the prerelease rule. -/
def cmpSemV (a b : SemV) : Ordering :=
  match cmpNat a.major b.major with
  | .eq =>
    match cmpNat a.minor b.minor with
    | .eq =>
      match cmpNat a.patch b.patch with
      | .eq => cmpPre a.pre b.pre
      | o => o
    | o => o
  | o => o

/-- Default parse used to totalize string comparison; only applied to
strings already known valid wherever the source calls
`semver.compare` without a preceding throw. -/
def parseSemVD (s : String) : SemV := (parseSemV s.data).getD ⟨0, 0, 0, []⟩

/-- Model of `semver.compare` on version strings.  The source only
reaches this with strings on which `new SemVer` does not throw; on
other strings this totalization parses them as `0.0.0`. -/
def semvCmpStr (a b : String) : Ordering := cmpSemV (parseSemVD a) (parseSemVD b)

/-! ## Model of `semver.satisfies`

Ranges are a disjunction (npm `||`) of comparator sets; a comparator
set is a space-separated conjunction of comparators; tokens desugar as
in npm semver (x-ranges, tilde, caret) into primitive comparators
against parsed versions, upper bounds carrying the `-0` prerelease
marker as npm semver 7 produces.  Version-range forms outside the
modelled subset (hyphen ranges, partials after a primitive operator,
operator-space-version) parse to `none`; `semverSatisfies` then returns
`false`, as `semver.satisfies` does for ranges it cannot parse. -/

/-- Primitive comparator operators of a desugared range. -/
inductive ROp
  | rlt
  | rle
  | rgt
  | rge
  | req
deriving DecidableEq, Repr

/-- A primitive comparator: an operator against a parsed version. -/
structure RComp where
  op : ROp
  v : SemV
deriving DecidableEq, Repr

/-- The version `m.n.p` with no prerelease. -/
def verPlain (m n p : Nat) : SemV := ⟨m, n, p, []⟩

/-- The version `m.n.p-0`, npm semver's least version of a patch level,
used as the exclusive upper bound of desugared x-ranges and of tilde
and caret ranges. -/
def verPre0 (m n p : Nat) : SemV := ⟨m, n, p, [['0']]⟩

/-- Desugared comparators of the x-range on a whole major version. -/
def majorRange (m : Nat) : List RComp :=
  [⟨.rge, verPlain m 0 0⟩, ⟨.rlt, verPre0 (m + 1) 0 0⟩]

/-- Desugared comparators of the x-range on a major.minor pair. -/
def minorRange (m n : Nat) : List RComp :=
  [⟨.rge, verPlain m n 0⟩, ⟨.rlt, verPre0 m (n + 1) 0⟩]

/-- Interpret one dotted component of an x-range partial: a wildcard
(`x`, `X`, `*`) or a numeric identifier. -/
def parseXPart (l : List Char) : Option (Option Nat) :=
  if l = ['x'] || l = ['X'] || l = ['*'] then some none
  else if numericIdent l then some (some (charsToNat l)) else none

/-- Desugar an x-range partial (`*`, `1`, `1.x`, `1.2`, `1.2.x`, ...)
into primitive comparators, following npm semver `replaceXRange`. -/
def xRangeComps (l : List Char) : Option (List RComp) :=
  match (splitOnListChar '.' l).map parseXPart with
  | [some none] => some []
  | [some (some m)] => some (majorRange m)
  | [some none, some _] => some []
  | [some (some _), none] => none
  | [some (some m), some none] => some (majorRange m)
  | [some (some m), some (some n)] => some (minorRange m n)
  | [some none, some _, some _] => some []
  | [some (some m), some none, some _] => some (majorRange m)
  | [some (some m), some (some n), some none] => some (minorRange m n)
  | _ => none

/-- Desugar a tilde token body, following npm semver `replaceTilde`. -/
def tildeComps (l : List Char) : Option (List RComp) :=
  match parseSemV l with
  | some v => some [⟨.rge, v⟩, ⟨.rlt, verPre0 v.major (v.minor + 1) 0⟩]
  | none =>
    match (splitOnListChar '.' l).map parseXPart with
    | [some (some m)] => some (majorRange m)
    | [some (some m), some none] => some (majorRange m)
    | [some (some m), some (some n)] => some (minorRange m n)
    | [some (some m), some (some n), some none] => some (minorRange m n)
    | _ => none

/-- Desugar a caret token body, following npm semver `replaceCaret`. -/
def caretComps (l : List Char) : Option (List RComp) :=
  match parseSemV l with
  | some v =>
    if 0 < v.major then some [⟨.rge, v⟩, ⟨.rlt, verPre0 (v.major + 1) 0 0⟩]
    else if 0 < v.minor then some [⟨.rge, v⟩, ⟨.rlt, verPre0 0 (v.minor + 1) 0⟩]
    else some [⟨.rge, v⟩, ⟨.rlt, verPre0 0 0 (v.patch + 1)⟩]
  | none =>
    match (splitOnListChar '.' l).map parseXPart with
    | [some (some m)] => some (majorRange m)
    | [some (some m), some none] => some (majorRange m)
    | [some (some m), some (some n)] =>
      some (if m = 0 then minorRange 0 n else [⟨.rge, verPlain m n 0⟩, ⟨.rlt, verPre0 (m + 1) 0 0⟩])
    | [some (some m), some (some n), some none] =>
      some (if m = 0 then minorRange 0 n else [⟨.rge, verPlain m n 0⟩, ⟨.rlt, verPre0 (m + 1) 0 0⟩])
    | _ => none

/-- Desugar one whitespace-separated range token into primitive
comparators. -/
def tokenComps (l : List Char) : Option (List RComp) :=
  match l with
  | '^' :: rest => caretComps rest
  | '~' :: rest => tildeComps rest
  | '>' :: '=' :: rest => (parseSemV rest).map fun v => [⟨.rge, v⟩]
  | '<' :: '=' :: rest => (parseSemV rest).map fun v => [⟨.rle, v⟩]
  | '>' :: rest => (parseSemV rest).map fun v => [⟨.rgt, v⟩]
  | '<' :: rest => (parseSemV rest).map fun v => [⟨.rlt, v⟩]
  | '=' :: rest => (parseSemV rest).map fun v => [⟨.req, v⟩]
  | _ =>
    match parseSemV l with
    | some v => some [⟨.req, v⟩]
    | none => xRangeComps l

/-- Parse one comparator set: whitespace-separated tokens, each
desugared; the empty set has no comparators and admits every
non-prerelease version. -/
def parseRangeSet (l : List Char) : Option (List RComp) :=
  ((splitOnListChar ' ' l).filter (· ≠ [])).foldr
    (fun tok acc => match tokenComps tok, acc with
      | some cs, some rest => some (cs ++ rest)
      | _, _ => none)
    (some [])

/-- Split a range string on npm's `||` disjunction separator. -/
def splitOnDoubleBar : List Char → List (List Char)
  | [] => [[]]
  | '|' :: '|' :: xs => [] :: splitOnDoubleBar xs
  | x :: xs =>
    match splitOnDoubleBar xs with
    | g :: gs => (x :: g) :: gs
    | [] => [[x]]

/-- Parse a range into its disjunction of comparator sets. -/
def parseRange (s : String) : Option (List (List RComp)) :=
  (splitOnDoubleBar s.data).foldr
    (fun seg acc => match parseRangeSet seg, acc with
      | some set, some sets => some (set :: sets)
      | _, _ => none)
    (some [])

/-- Test a parsed version against one primitive comparator. -/
def testComp (v : SemV) (c : RComp) : Bool :=
  match cmpSemV v c.v, c.op with
  | .lt, .rlt => true
  | .lt, .rle => true
  | .eq, .rle => true
  | .eq, .req => true
  | .eq, .rge => true
  | .gt, .rgt => true
  | .gt, .rge => true
  | _, _ => false

/-- Test a parsed version against a comparator set, including npm
semver's prerelease rule: a prerelease version only satisfies a set
that contains a comparator with a prerelease on the same numeric
triple. -/
def setMatches (v : SemV) (set : List RComp) : Bool :=
  set.all (testComp v) &&
    (v.pre.isEmpty ||
      set.any fun c =>
        !c.v.pre.isEmpty && c.v.major == v.major && c.v.minor == v.minor &&
          c.v.patch == v.patch)

/-- Model of `semver.satisfies(version, range)`: `false` when either
side fails to parse, otherwise satisfaction of some comparator set of
the range. -/
def semverSatisfies (version range : String) : Bool :=
  match parseSemV version.data, parseRange range with
  | some v, some sets => sets.any (setMatches v)
  | _, _ => false

/-! ## The source embedding

Definitions in this section are translated from
`src/unnamed/part_000`.  Device model identifiers (`DeviceModelId`) are
strings; the external process and transport handles are abstracted to
numeric tokens, their identity being all the source ever uses. -/

/-- The discovered-candidate record (`AppCandidate` of the source). -/
structure AppCandidate where
  path : String
  model : String
  firmware : String
  appName : String
  appVersion : String
deriving DecidableEq, Repr

/-- The search-constraint record (`AppSearch` of the source); every
field optional, `none` for a JavaScript `undefined`. -/
structure AppSearch where
  model : Option String := none
  firmware : Option String := none
  appName : Option String := none
  appVersion : Option String := none
deriving DecidableEq, Repr

/-- The `modelMap` table of the source: directory alias to device
model identifier. -/
def modelMap (s : String) : Option String :=
  if s = "nanos" then some "nanoS"
  else if s = "nanox" then some "nanoX"
  else if s = "blue" then some "blue"
  else none

/-- The `modelMapPriority` table of the source. -/
def modelMapPriority (s : String) : Option Nat :=
  if s = "nanos" then some 3
  else if s = "nanox" then some 2
  else if s = "blue" then some 1
  else none

/-- The `hackBadSemver` repair of the source: split on dots; with more
than three components, the tail is folded into the third as a
hyphen-joined suffix; empty (or missing) components are dropped by the
`filter(Boolean)` and the rest re-joined with dots.  The JavaScript
destructuring yields `undefined` for missing components, modelled with
`Option`; the third component is always defined when the tail is
nonempty (four or more components), so the `getD` default is never
consulted. -/
def hackBadSemver (str : String) : String :=
  let comps := splitOnListChar '.' str.data
  let x := comps[0]?
  let y := comps[1]?
  let z := comps[2]?
  let rest := comps.drop 3
  let z2 := if rest.isEmpty then z else some ((z.getD []) ++ '-' :: joinWithChar '-' rest)
  ⟨joinWithChar '.' (([x, y, z2].filterMap id).filter fun t => !t.isEmpty)⟩

/-! ### The directory scanner

A directory tree is a value: the listing of the scan root (model
directories), each with its firmware-directory listings, application
directories and application files, in `readdir` order. -/

/-- An application directory: its name and its file listing. -/
abbrev AppDirT := String × List String

/-- A firmware directory: its name and its application directories. -/
abbrev FwDirT := String × List AppDirT

/-- A model directory: its name and its firmware directories. -/
abbrev ModelDirT := String × List FwDirT

/-- The scan root listing. -/
abbrev ScanTree := List ModelDirT

/-- The ascending order of the firmware sort of the source:
`semver.compare` on `hackBadSemver`-repaired directory names. -/
def fwLe (a b : FwDirT) : Prop :=
  semvCmpStr (hackBadSemver a.1) (hackBadSemver b.1) ≠ .gt

instance : DecidableRel fwLe := fun _ _ =>
  inferInstanceAs (Decidable ¬(_ = Ordering.gt))

/-- The ascending order of the per-application candidate sort of the
source: `semver.compare` on the (already valid) version strings. -/
def verLe (a b : AppCandidate) : Prop :=
  semvCmpStr a.appVersion b.appVersion ≠ .gt

instance : DecidableRel verLe := fun _ _ =>
  inferInstanceAs (Decidable ¬(_ = Ordering.gt))

/-- The descending order of the model sort of the source, comparator
`(a, b) => b[1] - a[1]` on the priority component. -/
def prioGe (a b : ModelDirT × Nat) : Prop := b.2 ≤ a.2

instance : DecidableRel prioGe := fun _ _ =>
  inferInstanceAs (Decidable (_ ≤ _))

/-- The retained, priority-sorted model directories: the source maps
each first-level name to its priority, drops falsy priorities
(`undefined`, and `0` which never occurs in the table), and sorts
descending by priority.  JavaScript `Array.prototype.sort` is stable,
as is `List.insertionSort`. -/
def retainedModels (tree : ScanTree) : List (ModelDirT × Nat) :=
  List.insertionSort prioGe
    (tree.filterMap fun e =>
      (modelMapPriority (lowerStr e.1)).bind fun p =>
        if p = 0 then none else some (e, p))

/-- One file of an application directory, as the scanner inspects it:
a candidate when the name matches `app_<version>.elf` and the embedded
version is a valid semantic version, skipped otherwise. -/
def elfToCandidate (p3 modelId fw appName : String) (elf : String) : Option AppCandidate :=
  if strStartsWith elf "app_" && strEndsWith elf ".elf" then
    let appVersion : String := ⟨sliceList 4 (elf.data.length - 4) elf.data⟩
    if semverValid appVersion then
      some ⟨pathJoin p3 elf, modelId, fw, appName, appVersion⟩
    else none
  else none

/-- The candidates of one application directory: valid files, sorted
ascending by `semver.compare` on the version and reversed (the
source's `c.sort(...); c.reverse()`). -/
def elfCandidates (p3 modelId fw appName : String) (elfs : List String) : List AppCandidate :=
  (List.insertionSort verLe (elfs.filterMap (elfToCandidate p3 modelId fw appName))).reverse

/-- The candidates of one firmware directory: application directories
in listing order, each contributing its sorted candidates. -/
def firmwareBlock (p2 modelId fwName : String) (apps : List AppDirT) : List AppCandidate :=
  (apps.map fun a => elfCandidates (pathJoin p2 a.1) modelId fwName a.1 a.2).flatten

/-- The candidates of one model directory: firmware directories sorted
ascending by `semver.compare` on repaired names and reversed, each
contributing its firmware block. -/
def modelEntryBlock (cwd : String) (e : ModelDirT) : List AppCandidate :=
  let modelId := (modelMap (lowerStr e.1)).getD ""
  let p1 := pathJoin cwd e.1
  ((List.insertionSort fwLe e.2).reverse.map fun fw =>
    firmwareBlock (pathJoin p1 fw.1) modelId fw.1 fw.2).flatten

/-- The scanner (`listAppCandidates` of the source) on a directory
tree.  The firmware sort calls `semver.compare` on repaired names; the
`SemVer` constructor throws `TypeError: Invalid Version` on a name that
is still not a valid semantic version after repair.  Sorting a list of
two or more entries involves every entry in at least one comparison,
so the sort throws exactly when such a list contains an invalid
repaired name, and the rejection propagates out of the returned
promise; which of several invalid names the message cites is
implementation-defined, so the model uses a fixed error value.  With
at most one firmware directory the comparator is never called and the
scan proceeds. -/
def listAppCandidates (cwd : String) (tree : ScanTree) : Except String (List AppCandidate) :=
  let models := retainedModels tree
  if models.any fun e =>
      2 ≤ e.1.2.length && e.1.2.any fun fw => !(semverValid (hackBadSemver fw.1)) then
    .error "Invalid Version"
  else
    .ok ((models.map fun e => modelEntryBlock cwd e.1).flatten)

/-! ### The candidate matcher -/

/-- JavaScript truthiness of an optional string field: `undefined` and
the empty string are falsy. -/
def strFalsy : Option String → Bool
  | none => true
  | some s => s == ""

/-- The matcher (`appCandidatesMatches` of the source): a falsy field
is a wildcard; `model` and `appName` compare with `===`; `firmware`
compares with `===` or by `semver.satisfies` of the repaired candidate
firmware against the search string as a range; `appVersion` by
`semver.satisfies` of the raw candidate version against the search
string as a range. -/
def appCandidatesMatches (appCandidate : AppCandidate) (search : AppSearch) : Bool :=
  (strFalsy search.model || search.model == some appCandidate.model) &&
  (strFalsy search.appName || search.appName == some appCandidate.appName) &&
  (strFalsy search.firmware || some appCandidate.firmware == search.firmware ||
    semverSatisfies (hackBadSemver appCandidate.firmware) (search.firmware.getD "")) &&
  (strFalsy search.appVersion ||
    semverSatisfies appCandidate.appVersion (search.appVersion.getD ""))

/-- The first-match search (`findAppCandidate` of the source,
`Array.prototype.find`). -/
def findAppCandidate (appCandidates : List AppCandidate) (search : AppSearch) :
    Option AppCandidate :=
  appCandidates.find? fun c => appCandidatesMatches c search

/-! ### The query analysis -/

/-- The `eatDevice` step of the source: when the first segment's part
before `@` is a model alias (case-insensitive), consume the segment and
return the model (and the part after `@` as firmware when truthy).
JavaScript destructuring of `split("@")` ignores segments past the
second; `if (firmware)` treats the empty string as absent; the
`modelQ || ""` default never fires since a split yields at least one
segment. -/
def eatDevice (parts : List String) : (Option String × Option String) × List String :=
  match parts with
  | [] => ((none, none), [])
  | p :: ps =>
    let segs := splitOnListChar '@' p.data
    let modelQ : String := ⟨(segs[0]?).getD []⟩
    let firmware : Option String := (segs[1]?).map fun l => ⟨l⟩
    match modelMap (lowerStr modelQ) with
    | some model =>
      ((some model,
        match firmware with
        | some f => if f = "" then none else some f
        | none => none), ps)
    | none => ((none, none), p :: ps)

/-- The analysis result of `parseAppSearch`: the search record, the
resolved application name, the optional companion dependency, and --
separately -- the stray `version` property.  The source builds its
search object as `{ model, firmware, appName, version }`, although the
declared result type `AppSearch` has no `version` field: reading
`search.appVersion` downstream therefore yields `undefined`, so the
embedding sets `search.appVersion` to `none` and records the stray
property in `searchVersion`. -/
structure ParsedAppSearch where
  search : AppSearch
  searchVersion : Option String
  appName : String
  dependency : Option String
deriving DecidableEq, Repr

/-- The query analysis (`parseAppSearch` of the source).  The
currency-keyword table (`findCryptoCurrencyByKeyword`, a hit collapsed
to its `managerAppName`) and the dependency table (`getDependencies`)
live outside this module (`../currencies`, `../apps/polyfill`) and are
parameters of the embedding.  The query's first nine characters (the
`speculos:` prefix) are dropped, the rest split on `:`; after the
optional device segment, the next segment splits on `@` into the
application token and the optional version range (the empty string
treated as absent by `versionQ || undefined`). -/
def parseAppSearch (findCryptoCurrencyByKeyword : String → Option String)
    (getDependencies : String → List String) (query : String) :
    Option ParsedAppSearch :=
  let parts := (splitOnListChar ':' (query.data.drop 9)).map fun l => (⟨l⟩ : String)
  let (dev, parts2) := eatDevice parts
  match parts2 with
  | [] => none
  | p :: _ =>
    let segs := splitOnListChar '@' p.data
    let nameQ : String := ⟨(segs[0]?).getD []⟩
    let versionQ : Option String := (segs[1]?).map fun l => ⟨l⟩
    let currency := findCryptoCurrencyByKeyword nameQ
    let appName := currency.getD nameQ
    let version : Option String :=
      match versionQ with
      | some v => if v = "" then none else some v
      | none => none
    let dependency := currency.bind fun mApp => (getDependencies mApp).head?
    some { search := { model := dev.1, firmware := dev.2, appName := some appName,
                       appVersion := none },
           searchVersion := version, appName := appName, dependency := dependency }

/-! ### Ports, registry, teardown, transport dispatch -/

/-- The four host ports of one instance, as `createSpeculosDevice`
computes them from the incremented instance counter. -/
structure PortSet where
  apduPort : Nat
  vncPort : Nat
  buttonPort : Nat
  automationPort : Nat
deriving DecidableEq, Repr

/-- The port computation of `createSpeculosDevice`:
`40000/41000/42000/43000 + idCounter`. -/
def allocatePorts (idCounter : Nat) : PortSet :=
  ⟨40000 + idCounter, 41000 + idCounter, 42000 + idCounter, 43000 + idCounter⟩

/-- The four ports of a quadruplet as a list. -/
def portList (p : PortSet) : List Nat :=
  [p.apduPort, p.vncPort, p.buttonPort, p.automationPort]

/-- Two port quadruplets share a port. -/
def sharesPort (p q : PortSet) : Bool :=
  (portList p).any fun x => (portList q).contains x

/-- A registry record (`data[id]` of the source); the process and
transport handles are abstract numeric tokens. -/
structure DeviceRec where
  processHandle : Nat
  apduPort : Nat
  buttonPort : Nat
  automationPort : Nat
  transport : Nat
deriving DecidableEq, Repr

/-- The registry write `data[id] = record` of `createSpeculosDevice`. -/
def registerDevice (id : String) (r : DeviceRec) (d : String → Option DeviceRec) :
    String → Option DeviceRec :=
  fun k => if k = id then some r else d k

/-- The registry delete `delete data[id]` of the destroy closure. -/
def removeDevice (id : String) (d : String → Option DeviceRec) :
    String → Option DeviceRec :=
  fun k => if k = id then none else d k

/-- The externally observable actions of one `destroy()` call, in
program order. -/
inductive DestroyEvent
  | entryRemoved (id : String)
  | dockerRm (id : String)
deriving DecidableEq, Repr

/-- The settlement of the promise a `destroy()` call returns. -/
inductive PromiseOutcome
  | resolved
  | rejected
  | pending
deriving DecidableEq, Repr

/-- One run of the destroy closure of `createSpeculosDevice`: when the
registry has no entry for `id`, the promise executor returns without
calling `resolve` or `reject`, so nothing happens and the returned
promise stays pending forever; otherwise the entry is deleted first
and `docker rm -f <id>` is then requested, the promise settling
according to the `exec` callback (`execOk`). -/
def destroyRun (execOk : Bool) (id : String) (d : String → Option DeviceRec) :
    (String → Option DeviceRec) × List DestroyEvent × PromiseOutcome :=
  if (d id).isSome then
    (removeDevice id d, [.entryRemoved id, .dockerRm id],
      if execOk then .resolved else .rejected)
  else
    (d, [], .pending)

/-- The result of the transport module's `open` (the
`registerTransportModule` block of the source). -/
inductive OpenResult
  | opened (transport : Nat)
  | destroyedError
  | implicitOpen (query : String)
  | notHandled
deriving DecidableEq, Repr

/-- The transport module's `open` dispatch: a `speculosID`-prefixed
identifier looks up the registry, throwing the destroyed error when it
is absent and returning the stored transport otherwise; a
`speculos:`-prefixed string defers to `openImplicitSpeculos`; anything
else returns `undefined`. -/
def openTransport (d : String → Option DeviceRec) (id : String) : OpenResult :=
  if strStartsWith id "speculosID" then
    match d id with
    | none => .destroyedError
    | some r => .opened r.transport
  else if strStartsWith id "speculos:" then .implicitOpen id
  else .notHandled

/-- The spawn specification of `createSpeculosDevice`. -/
structure SpawnSpec where
  model : String
  firmware : String
  appName : String
  appVersion : String
  dependency : Option String
  seed : String
  coinapps : String
deriving DecidableEq, Repr

/-- The full `docker run` argument list `createSpeculosDevice` spawns,
in source order; the dependency splice contributes `-l` and
`<dep>:./apps/<model>/<firmware>/<dep>/app_<appVersion>.elf` exactly
when a dependency is present. -/
def dockerArgs (s : SpawnSpec) (id : String)
    (apduPort vncPort buttonPort automationPort : Nat) : List String :=
  ["run",
   "-v", s.coinapps ++ ":/speculos/apps",
   "-p", toString apduPort ++ ":40000",
   "-p", toString vncPort ++ ":41000",
   "-p", toString buttonPort ++ ":42000",
   "-p", toString automationPort ++ ":43000",
   "-e", "SPECULOS_APPNAME=" ++ s.appName ++ ":" ++ s.appVersion,
   "--name", id,
   "ledgerhq/speculos",
   "--model", lowerStr s.model,
   "./apps/" ++ lowerStr s.model ++ "/" ++ s.firmware ++ "/" ++ s.appName ++
     "/app_" ++ s.appVersion ++ ".elf"] ++
  (match s.dependency with
   | some dep =>
     ["-l", dep ++ ":" ++ ("./apps/" ++ lowerStr s.model ++ "/" ++ s.firmware ++ "/" ++
       dep ++ "/app_" ++ s.appVersion ++ ".elf")]
   | none => []) ++
  ["--sdk", "1.6",
   "--seed", s.seed,
   "--display", "headless",
   "--vnc-password", "live",
   "--apdu-port", "40000",
   "--vnc-port", "41000",
   "--button-port", "42000",
   "--automation-port", "43000"]

/-! ## Comparator laws

The sort correctness arguments need that the comparators the source
hands to `Array.prototype.sort` are total preorders; `CmpLaws` is the
law kit, closed under lexicographic composition, list lifting and
pullback along a key. -/

/-- Lexicographic composition of two three-way comparisons: the second
breaks the ties of the first. -/
def lexThen (g h : α → α → Ordering) (a b : α) : Ordering :=
  match g a b with
  | .eq => h a b
  | o => o

/-- The laws making a three-way comparison a total preorder: reflexive
equality answers, antisymmetric swapping, transitive strict ordering,
and substitutivity of equal elements. -/
structure CmpLaws (f : α → α → Ordering) : Prop where
  refl : ∀ a, f a a = .eq
  swap : ∀ a b, f b a = (f a b).swap
  lt_trans : ∀ a b c, f a b = .lt → f b c = .lt → f a c = .lt
  eq_left : ∀ a b x, f a b = .eq → f a x = f b x

/-! ## Specification-side definitions

These definitions follow the wording of the specification (not the
source); the theorems below relate them to the source embedding. -/

/-- The matcher exactly as claim C5 words it: a present (`some`) field
constrains -- `model` and `appName` by equality, `firmware` by equality
or range satisfaction of the normalized candidate firmware,
`appVersion` by range satisfaction of the raw candidate version; an
absent field is a wildcard. -/
def matchesClaimC5 (c : AppCandidate) (s : AppSearch) : Bool :=
  (match s.model with
   | none => true
   | some m => m == c.model) &&
  (match s.appName with
   | none => true
   | some a => a == c.appName) &&
  (match s.firmware with
   | none => true
   | some f => c.firmware == f || semverSatisfies (hackBadSemver c.firmware) f) &&
  (match s.appVersion with
   | none => true
   | some v => semverSatisfies c.appVersion v)

/-- The matcher as claim C5 must be amended: like `matchesClaimC5`,
except that a present but empty-string field is also a wildcard,
mirroring the JavaScript falsiness tests of the source. -/
def matchesAmendedC5 (c : AppCandidate) (s : AppSearch) : Bool :=
  (match s.model with
   | none => true
   | some m => m == "" || m == c.model) &&
  (match s.appName with
   | none => true
   | some a => a == "" || a == c.appName) &&
  (match s.firmware with
   | none => true
   | some f => f == "" || c.firmware == f || semverSatisfies (hackBadSemver c.firmware) f) &&
  (match s.appVersion with
   | none => true
   | some v => v == "" || semverSatisfies c.appVersion v)

/-- The model priority of a produced candidate, recovered from its
model identifier (used to state the scan ordering). -/
def candPriority (c : AppCandidate) : Nat :=
  (modelMapPriority (lowerStr c.model)).getD 0

/-- Version-string comparison is at least: `semver.compare` does not
answer less-than. -/
def semvGeStr (a b : String) : Prop := semvCmpStr a b ≠ .lt

/-- The ordering claim C2 states between any earlier candidate `c1`
and later candidate `c2` of a scan: model priority is non-increasing;
within a model the normalized firmware is non-increasing; within a
model, firmware and application the version is non-increasing. -/
def scanFollows (c1 c2 : AppCandidate) : Prop :=
  candPriority c2 ≤ candPriority c1 ∧
  (c1.model = c2.model →
    semvGeStr (hackBadSemver c1.firmware) (hackBadSemver c2.firmware)) ∧
  (c1.model = c2.model → c1.firmware = c2.firmware → c1.appName = c2.appName →
    semvGeStr c1.appVersion c2.appVersion)

/-- A candidate sequence ordered as claim C2 states. -/
def scanOrdered (l : List AppCandidate) : Prop := l.Pairwise scanFollows

/-- The application-directory listing of the C2 fixture. -/
def bitcoinApps : List AppDirT := [("bitcoin", ["app_1.2.0.elf", "app_1.3.1.elf"])]

/-- The directory tree of the C2 fixture exactly as the claim gives it:
models `nanos` and `nanox`, firmware directories `1.6` and `2.0`, app
`bitcoin` in versions 1.2.0 and 1.3.1 under each firmware. -/
def fixtureClaimedC2 : ScanTree :=
  [("nanos", [("1.6", bitcoinApps), ("2.0", bitcoinApps)]),
   ("nanox", [("1.6", bitcoinApps), ("2.0", bitcoinApps)])]

/-- The C2 fixture with firmware directory names that are valid
semantic versions, as the amended claim requires. -/
def fixtureAmendedC2 : ScanTree :=
  [("nanos", [("1.6.0", bitcoinApps), ("2.0.0", bitcoinApps)]),
   ("nanox", [("1.6.0", bitcoinApps), ("2.0.0", bitcoinApps)])]

/-! ## Claim C4: port allocation -/

/-- Claim C4 as stated is false: the port quadruplets of two distinct
counters can share a port.  Counters 1001 and 1 collide: the apdu port
of instance 1001 (41001) equals the vnc port of instance 1. -/
theorem counterexampleC4_ports_collide :
    (1001 : Nat) ≠ 1 ∧ sharesPort (allocatePorts 1001) (allocatePorts 1) = true := by
  decide

/-- C4 (amended): for distinct counters whose difference is not 1000,
2000 or 3000 the two quadruplets share no port, and within one
allocation the four ports are pairwise distinct. -/
theorem portsC4_disjoint_when_bands_clear :
    (∀ n1 n2 : Nat, n1 ≠ n2 →
      n1 ≠ n2 + 1000 → n2 ≠ n1 + 1000 → n1 ≠ n2 + 2000 → n2 ≠ n1 + 2000 →
      n1 ≠ n2 + 3000 → n2 ≠ n1 + 3000 →
      sharesPort (allocatePorts n1) (allocatePorts n2) = false) ∧
    ∀ n : Nat, (portList (allocatePorts n)).Nodup := by
  constructor
  · intro n1 n2 h h1 h2 h3 h4 h5 h6
    simp [sharesPort, allocatePorts, portList]
    omega
  · intro n
    simp [allocatePorts, portList]

/-- Witness for the amended C4 at counters 1 and 2 (first part) and 5
(second part). -/
theorem portsC4_disjoint_when_bands_clear_witness :
    sharesPort (allocatePorts 1) (allocatePorts 2) = false ∧
      (portList (allocatePorts 5)).Nodup :=
  ⟨portsC4_disjoint_when_bands_clear.1 1 2 (by decide) (by decide) (by decide) (by decide)
      (by decide) (by decide) (by decide),
   portsC4_disjoint_when_bands_clear.2 5⟩

/-! ## Claim C10: the dependency library-load argument -/

/-- C10: whenever a dependency is specified, the spawn argument list
contains `-l` immediately followed by
`<dep>:./apps/<model>/<firmware>/<dep>/app_<appVersion>.elf`, where
`<appVersion>` is the primary target application's version from the
spawn spec. -/
theorem dependencyC10_arg_uses_primary_version :
    ∀ (model firmware appName appVersion seed coinapps id dep : String)
      (p1 p2 p3 p4 : Nat),
      ∃ pre post,
        dockerArgs ⟨model, firmware, appName, appVersion, some dep, seed, coinapps⟩
            id p1 p2 p3 p4 =
          pre ++ "-l" ::
            (dep ++ ":" ++ ("./apps/" ++ lowerStr model ++ "/" ++ firmware ++ "/" ++
              dep ++ "/app_" ++ appVersion ++ ".elf")) :: post := by
  intro model firmware appName appVersion seed coinapps id dep p1 p2 p3 p4
  exact ⟨["run",
    "-v", coinapps ++ ":/speculos/apps",
    "-p", toString p1 ++ ":40000",
    "-p", toString p2 ++ ":41000",
    "-p", toString p3 ++ ":42000",
    "-p", toString p4 ++ ":43000",
    "-e", "SPECULOS_APPNAME=" ++ appName ++ ":" ++ appVersion,
    "--name", id,
    "ledgerhq/speculos",
    "--model", lowerStr model,
    "./apps/" ++ lowerStr model ++ "/" ++ firmware ++ "/" ++ appName ++
      "/app_" ++ appVersion ++ ".elf"],
   ["--sdk", "1.6", "--seed", seed, "--display", "headless", "--vnc-password", "live",
    "--apdu-port", "40000", "--vnc-port", "41000", "--button-port", "42000",
    "--automation-port", "43000"], rfl⟩

/-! ## Claim C1: the version range of the query is dropped -/

/-- C1 fails on the code: parsing `speculos:nanoS:bitcoin@1.3.x` (with
a keyword table in which `bitcoin` is no currency keyword) yields a
search whose `appVersion` is absent -- the range only survives in the
stray `version` property that the matcher never reads -- so a candidate
of version 9.9.9 still matches the produced search. -/
theorem parseC1_version_range_dropped :
    parseAppSearch (fun _ => none) (fun _ => []) "speculos:nanoS:bitcoin@1.3.x" =
      some { search := { model := some "nanoS", firmware := none,
                         appName := some "bitcoin", appVersion := none },
             searchVersion := some "1.3.x", appName := "bitcoin", dependency := none } ∧
    appCandidatesMatches ⟨"p", "nanoS", "1.6.0", "bitcoin", "9.9.9"⟩
      { model := some "nanoS", firmware := none, appName := some "bitcoin",
        appVersion := none } = true := by
  decide

/-! ## Claim C3: destroy called twice -/

/-- C3: on a registered instance, the first destroy removes the entry
(first event) and only then requests the external removal (second
event), settling by the exec outcome; the second destroy is a no-op --
same registry, no events -- and exactly one `docker rm` happens across
both calls; but the second call's promise stays pending forever
instead of resolving. -/
theorem destroyC3_second_call_pending :
    (destroyRun true "speculosID-1"
        (registerDevice "speculosID-1" ⟨1, 40001, 42001, 43001, 7⟩ fun _ => none)).2.1 =
      [.entryRemoved "speculosID-1", .dockerRm "speculosID-1"] ∧
    (destroyRun true "speculosID-1"
        (registerDevice "speculosID-1" ⟨1, 40001, 42001, 43001, 7⟩ fun _ => none)).2.2 =
      .resolved ∧
    (destroyRun true "speculosID-1"
        (registerDevice "speculosID-1" ⟨1, 40001, 42001, 43001, 7⟩ fun _ => none)).1
      "speculosID-1" = none ∧
    destroyRun true "speculosID-1"
        (destroyRun true "speculosID-1"
          (registerDevice "speculosID-1" ⟨1, 40001, 42001, 43001, 7⟩ fun _ => none)).1 =
      ((destroyRun true "speculosID-1"
          (registerDevice "speculosID-1" ⟨1, 40001, 42001, 43001, 7⟩ fun _ => none)).1,
        [], .pending) ∧
    ((destroyRun true "speculosID-1"
        (registerDevice "speculosID-1" ⟨1, 40001, 42001, 43001, 7⟩ fun _ => none)).2.1 ++
      (destroyRun true "speculosID-1"
        (destroyRun true "speculosID-1"
          (registerDevice "speculosID-1" ⟨1, 40001, 42001, 43001, 7⟩ fun _ => none)).1).2.1).count
      (.dockerRm "speculosID-1") = 1 := by
  refine ⟨by decide, by decide, by decide, rfl, by decide⟩

/-! ## Claim C9: transport lookup by instance identifier -/

/-- C9: for a `speculosID`-prefixed identifier, the transport lookup
returns exactly the registered transport while the entry exists,
returns the registered transport right after registration, fails with
the destroyed error right after removal or whenever the entry is
absent (including never-registered identifiers), and is untouched by
registration or removal of other identifiers. -/
theorem openC9_transport_lookup :
    ∀ (d : String → Option DeviceRec) (id : String) (r : DeviceRec),
      strStartsWith id "speculosID" = true →
      (d id = some r → openTransport d id = .opened r.transport) ∧
      (d id = none → openTransport d id = .destroyedError) ∧
      openTransport (registerDevice id r d) id = .opened r.transport ∧
      openTransport (removeDevice id d) id = .destroyedError ∧
      (∀ (id2 : String) (r2 : DeviceRec), id2 ≠ id →
        openTransport (registerDevice id2 r2 d) id = openTransport d id ∧
        openTransport (removeDevice id2 d) id = openTransport d id) := by
  intro d id r h
  refine ⟨fun hs => ?_, fun hn => ?_, ?_, ?_, fun id2 r2 hne => ⟨?_, ?_⟩⟩
  · simp [openTransport, h, hs]
  · simp [openTransport, h, hn]
  · simp [openTransport, registerDevice, h]
  · simp [openTransport, removeDevice, h]
  · simp [openTransport, registerDevice, h, Ne.symm hne]
  · simp [openTransport, removeDevice, h, Ne.symm hne]

/-- Witness for C9 at the identifier `speculosID-1`: lookup right
after registration returns the stored transport 9, and lookup after
removal fails with the destroyed error. -/
theorem openC9_transport_lookup_witness :
    openTransport (registerDevice "speculosID-1" ⟨1, 2, 3, 4, 9⟩ fun _ => none)
        "speculosID-1" = .opened 9 ∧
      openTransport
        (removeDevice "speculosID-1"
          (registerDevice "speculosID-1" ⟨1, 2, 3, 4, 9⟩ fun _ => none))
        "speculosID-1" = .destroyedError :=
  ⟨(openC9_transport_lookup (fun _ => none) "speculosID-1" ⟨1, 2, 3, 4, 9⟩
      (by decide)).2.2.1,
   (openC9_transport_lookup (registerDevice "speculosID-1" ⟨1, 2, 3, 4, 9⟩ fun _ => none)
      "speculosID-1" ⟨1, 2, 3, 4, 9⟩ (by decide)).2.2.2.1⟩

/-! ## Claim C8: invalid files are silently skipped -/

/-- C8: a file whose name does not match `app_<version>.elf`, or whose
embedded version is not a valid semantic version, contributes nothing
to the application directory's candidates: the scan of the directory
with the file equals the scan without it (no error arises -- the
function is total -- and the remaining files' candidates are
unchanged). -/
theorem scanC8_invalid_files_skipped :
    ∀ (p3 modelId fw appName : String) (elfs1 elfs2 : List String) (bad : String),
      (¬(strStartsWith bad "app_" = true ∧ strEndsWith bad ".elf" = true) ∨
        semverValid ⟨sliceList 4 (bad.length - 4) bad.data⟩ = false) →
      elfCandidates p3 modelId fw appName (elfs1 ++ bad :: elfs2) =
        elfCandidates p3 modelId fw appName (elfs1 ++ elfs2) := by
  intro p3 mid fw app l1 l2 bad h
  have hnone : elfToCandidate p3 mid fw app bad = none := by
    by_cases hc : (strStartsWith bad "app_" && strEndsWith bad ".elf") = true
    · have hv : semverValid ⟨sliceList 4 (bad.length - 4) bad.data⟩ = false := by
        rcases h with h | h
        · exact absurd (Bool.and_eq_true _ _ |>.mp hc) h
        · exact h
      simp [elfToCandidate, hc, hv]
    · simp [elfToCandidate, hc]
  simp [elfCandidates, List.filterMap_append, List.filterMap_cons, hnone]

/-- Witness for C8: a `README.md` among two valid binaries changes
nothing. -/
theorem scanC8_invalid_files_skipped_witness :
    ((¬(strStartsWith "README.md" "app_" = true ∧
          strEndsWith "README.md" ".elf" = true) ∨
        semverValid ⟨sliceList 4 ("README.md".length - 4) "README.md".data⟩ = false)) ∧
    elfCandidates "c/nanos/2.0.0/bitcoin" "nanoS" "2.0.0" "bitcoin"
        (["app_1.2.0.elf"] ++ "README.md" :: ["app_1.3.1.elf"]) =
      elfCandidates "c/nanos/2.0.0/bitcoin" "nanoS" "2.0.0" "bitcoin"
        (["app_1.2.0.elf"] ++ ["app_1.3.1.elf"]) :=
  ⟨by decide, scanC8_invalid_files_skipped "c/nanos/2.0.0/bitcoin" "nanoS" "2.0.0" "bitcoin"
    ["app_1.2.0.elf"] ["app_1.3.1.elf"] "README.md" (by decide)⟩

/-! ## Claim C5: matcher semantics -/

/-- Claim C5 as stated is false on one point: a present but empty
`appName` (a legal string per the source's types) is treated by the
code as a wildcard -- the candidate `bitcoin` matches -- while the
claim's reading (present fields require equality) rejects it. -/
theorem counterexampleC5_empty_string_field :
    appCandidatesMatches ⟨"p", "nanoS", "1.6.0", "bitcoin", "1.3.1"⟩
      { appName := some "" } = true ∧
    matchesClaimC5 ⟨"p", "nanoS", "1.6.0", "bitcoin", "1.3.1"⟩
      { appName := some "" } = false := by
  decide

/-- C5 (amended): the empty search matches everything; the matcher
equals the claim's field semantics amended so that present-but-empty
fields are wildcards too; and the first-match search returns the first
element satisfying the matcher, or none. -/
theorem matcherC5_semantics :
    (∀ c : AppCandidate, appCandidatesMatches c {} = true) ∧
    (∀ (c : AppCandidate) (s : AppSearch),
      appCandidatesMatches c s = matchesAmendedC5 c s) ∧
    (∀ (l : List AppCandidate) (s : AppSearch),
      findAppCandidate l s = (l.filter fun c => appCandidatesMatches c s).head?) := by
  refine ⟨?_, ?_, ?_⟩
  · intro c
    simp [appCandidatesMatches, strFalsy]
  · intro c s
    obtain ⟨m, f, a, v⟩ := s
    cases m <;> cases f <;> cases a <;> cases v <;>
      simp [appCandidatesMatches, matchesAmendedC5, strFalsy]
  · intro l s
    induction l with
    | nil => rfl
    | cons c l ih =>
      by_cases h : appCandidatesMatches c s = true
      · simp [findAppCandidate, List.find?_cons, List.filter_cons, h]
      · simp only [findAppCandidate, List.find?_cons, List.filter_cons, h]
        simp only [Bool.false_eq_true, if_false]
        exact ih

/-! ## Split/join lemmas

Facts about the JavaScript split/join models, used for claims C6 and
C7. -/

theorem splitOnListChar_ne_nil (c : Char) (l : List Char) : splitOnListChar c l ≠ [] := by
  cases l with
  | nil => simp [splitOnListChar]
  | cons x xs =>
    unfold splitOnListChar
    cases splitOnListChar c xs with
    | nil => simp
    | cons g gs => by_cases h : x = c <;> simp [h]

theorem joinWithChar_cons2 (c : Char) (a b : List Char) (l : List (List Char)) :
    joinWithChar c (a :: b :: l) = a ++ c :: joinWithChar c (b :: l) := rfl

theorem splitOnListChar_cons_eq (c x : Char) (xs g : List Char) (gs : List (List Char))
    (hs : splitOnListChar c xs = g :: gs) :
    splitOnListChar c (x :: xs) = if x = c then [] :: g :: gs else (x :: g) :: gs := by
  unfold splitOnListChar
  rw [hs]

theorem joinWithChar_splitOnListChar (c : Char) (l : List Char) :
    joinWithChar c (splitOnListChar c l) = l := by
  induction l with
  | nil => rfl
  | cons x xs ih =>
    cases hs : splitOnListChar c xs with
    | nil => exact absurd hs (splitOnListChar_ne_nil c xs)
    | cons g gs =>
      rw [hs] at ih
      rw [splitOnListChar_cons_eq c x xs g gs hs]
      by_cases hx : x = c
      · subst hx
        rw [if_pos rfl, joinWithChar_cons2, List.nil_append, ih]
      · rw [if_neg hx]
        cases gs with
        | nil =>
          simp only [joinWithChar] at ih ⊢
          rw [ih]
        | cons g2 gs2 =>
          rw [joinWithChar_cons2] at ih ⊢
          rw [List.cons_append, ih]

theorem splitAtFirstChar_not_mem (c : Char) (l : List Char) (h : c ∉ l) :
    splitAtFirstChar c l = (l, none) := by
  induction l with
  | nil => rfl
  | cons x xs ih =>
    rw [List.mem_cons, not_or] at h
    unfold splitAtFirstChar
    rw [if_neg fun hx => h.1 hx.symm, ih h.2]

theorem splitAtFirstChar_append (c : Char) (l1 l2 : List Char) (h : c ∉ l1) :
    splitAtFirstChar c (l1 ++ c :: l2) = (l1, some l2) := by
  induction l1 with
  | nil =>
    rw [List.nil_append]
    unfold splitAtFirstChar
    rw [if_pos rfl]
  | cons x xs ih =>
    rw [List.mem_cons, not_or] at h
    rw [List.cons_append]
    unfold splitAtFirstChar
    rw [if_neg fun hx => h.1 hx.symm, ih h.2]

theorem splitOnListChar_not_mem (c : Char) (l : List Char) (h : c ∉ l) :
    splitOnListChar c l = [l] := by
  induction l with
  | nil => rfl
  | cons x xs ih =>
    rw [List.mem_cons, not_or] at h
    rw [splitOnListChar_cons_eq c x xs xs [] (ih h.2), if_neg fun hx => h.1 hx.symm]

theorem splitOnListChar_append (c : Char) (l1 l2 : List Char) (h : c ∉ l1) :
    splitOnListChar c (l1 ++ c :: l2) = l1 :: splitOnListChar c l2 := by
  induction l1 with
  | nil =>
    rw [List.nil_append]
    cases hs : splitOnListChar c l2 with
    | nil => exact absurd hs (splitOnListChar_ne_nil c l2)
    | cons g gs =>
      rw [splitOnListChar_cons_eq c c l2 g gs hs, if_pos rfl]
  | cons x xs ih =>
    rw [List.mem_cons, not_or] at h
    rw [List.cons_append]
    cases hs : splitOnListChar c (xs ++ c :: l2) with
    | nil => exact absurd hs (splitOnListChar_ne_nil c _)
    | cons g gs =>
      rw [splitOnListChar_cons_eq c x _ g gs hs, if_neg fun hx => h.1 hx.symm]
      rw [ih h.2] at hs
      cases hs
      rfl

theorem mem_joinWithChar (c : Char) (ls : List (List Char)) (x : Char)
    (h : x ∈ joinWithChar c ls) : x = c ∨ ∃ g ∈ ls, x ∈ g := by
  induction ls with
  | nil => simp [joinWithChar] at h
  | cons g gs ih =>
    cases gs with
    | nil =>
      right
      exact ⟨g, by simp, h⟩
    | cons g2 gs2 =>
      rw [joinWithChar_cons2] at h
      rcases List.mem_append.mp h with h | h
      · right
        exact ⟨g, by simp, h⟩
      · rcases List.mem_cons.mp h with h | h
        · exact Or.inl h
        · rcases ih h with h | ⟨g3, hg3, hx⟩
          · exact Or.inl h
          · exact Or.inr ⟨g3, List.mem_cons_of_mem g hg3, hx⟩

theorem joinWithChar_cons_ne_nil (c : Char) (g : List Char) (gs : List (List Char))
    (h : g ≠ []) : joinWithChar c (g :: gs) ≠ [] := by
  cases gs with
  | nil => exact h
  | cons g2 gs2 =>
    rw [joinWithChar_cons2]
    cases g with
    | nil => exact absurd rfl h
    | cons y ys => simp

/-- C7: `hackBadSemver` splits on dots; with more than three
components the first three become major/minor/patch, the tail is
re-joined with hyphens onto the patch field, and empty fields are
dropped; `1.6.1.9` normalizes to `1.6.1-9` and `1.6.0` is unchanged. -/
theorem normalizeC7_shape :
    hackBadSemver "1.6.1.9" = "1.6.1-9" ∧ hackBadSemver "1.6.0" = "1.6.0" ∧
    ∀ (s : String) (a b c : List Char) (rest : List (List Char)),
      splitOnListChar '.' s.data = a :: b :: c :: rest → rest ≠ [] →
      hackBadSemver s =
        ⟨joinWithChar '.'
          (([a, b, c ++ '-' :: joinWithChar '-' rest]).filter fun t => !t.isEmpty)⟩ := by
  refine ⟨by decide, by decide, ?_⟩
  intro s a b c rest hsplit hrest
  unfold hackBadSemver
  rw [hsplit]
  simp [List.isEmpty_eq_false, hrest, List.filterMap]

/-- Witness for C7 at the five-component string `1.2.3.4.5`. -/
theorem normalizeC7_shape_witness :
    hackBadSemver "1.2.3.4.5" =
      ⟨joinWithChar '.' (([['1'], ['2'], ['3'] ++ '-' :: joinWithChar '-' [['4'], ['5']]]).filter
        fun t => !t.isEmpty)⟩ :=
  normalizeC7_shape.2.2 "1.2.3.4.5" ['1'] ['2'] ['3'] [['4'], ['5']] (by decide) (by decide)

/-! ## Identifier and validity lemmas

Facts about semver identifiers and `parseSemV` on well-shaped inputs,
used for claim C6. -/

theorem numericIdent_digits (l : List Char) (h : numericIdent l = true) :
    ∀ x ∈ l, x.isDigit = true := by
  simp only [numericIdent, Bool.and_eq_true, List.all_eq_true, decide_eq_true_eq] at h
  exact fun x hx => h.1.2 x hx

theorem numericIdent_ne_nil (l : List Char) (h : numericIdent l = true) : l ≠ [] := by
  simp only [numericIdent, Bool.and_eq_true, Bool.not_eq_true', List.isEmpty_eq_false] at h
  exact h.1.1

theorem prereleaseIdent_chars (l : List Char) (h : prereleaseIdent l = true) :
    ∀ x ∈ l, isIdentChar x = true := by
  simp only [prereleaseIdent, Bool.and_eq_true, List.all_eq_true] at h
  exact h.1.2

theorem prereleaseIdent_ne_nil (l : List Char) (h : prereleaseIdent l = true) : l ≠ [] := by
  simp only [prereleaseIdent, Bool.and_eq_true, Bool.not_eq_true', List.isEmpty_eq_false] at h
  exact h.1.1

theorem digitChar_ne (x : Char) (h : x.isDigit = true) : x ≠ '.' ∧ x ≠ '-' ∧ x ≠ '+' := by
  refine ⟨?_, ?_, ?_⟩ <;> rintro rfl <;> exact absurd h (by decide)

theorem identChar_ne (x : Char) (h : isIdentChar x = true) : x ≠ '.' ∧ x ≠ '+' := by
  constructor <;> rintro rfl <;> exact absurd h (by decide)

theorem parseSemV_main_only (a b c : List Char)
    (ha : numericIdent a = true) (hb : numericIdent b = true) (hc : numericIdent c = true) :
    parseSemV (a ++ '.' :: (b ++ '.' :: c)) =
      some ⟨charsToNat a, charsToNat b, charsToNat c, []⟩ := by
  have hda := numericIdent_digits a ha
  have hdb := numericIdent_digits b hb
  have hdc := numericIdent_digits c hc
  have hchar : ∀ x ∈ a ++ '.' :: (b ++ '.' :: c), x.isDigit = true ∨ x = '.' := by
    intro x hx
    rcases List.mem_append.mp hx with h | h
    · exact Or.inl (hda x h)
    · rcases List.mem_cons.mp h with h | h
      · exact Or.inr h
      · rcases List.mem_append.mp h with h | h
        · exact Or.inl (hdb x h)
        · rcases List.mem_cons.mp h with h | h
          · exact Or.inr h
          · exact Or.inl (hdc x h)
  have hplus : '+' ∉ a ++ '.' :: (b ++ '.' :: c) := by
    intro hm
    rcases hchar _ hm with h | h
    · exact absurd h (by decide)
    · exact absurd h (by decide)
  have hminus : '-' ∉ a ++ '.' :: (b ++ '.' :: c) := by
    intro hm
    rcases hchar _ hm with h | h
    · exact absurd h (by decide)
    · exact absurd h (by decide)
  have hs3 : splitOnListChar '.' (a ++ '.' :: (b ++ '.' :: c)) = [a, b, c] := by
    rw [splitOnListChar_append '.' a _ (fun hm => (digitChar_ne _ (hda _ hm)).1 rfl),
      splitOnListChar_append '.' b c (fun hm => (digitChar_ne _ (hdb _ hm)).1 rfl),
      splitOnListChar_not_mem '.' c (fun hm => (digitChar_ne _ (hdc _ hm)).1 rfl)]
  simp [parseSemV, splitAtFirstChar_not_mem _ _ hplus, splitAtFirstChar_not_mem _ _ hminus,
    hs3, ha, hb, hc]

theorem parseSemV_with_pre (a b c J : List Char)
    (ha : numericIdent a = true) (hb : numericIdent b = true) (hc : numericIdent c = true)
    (hJ : prereleaseIdent J = true) :
    parseSemV (a ++ '.' :: (b ++ '.' :: (c ++ '-' :: J))) =
      some ⟨charsToNat a, charsToNat b, charsToNat c, [J]⟩ := by
  have hda := numericIdent_digits a ha
  have hdb := numericIdent_digits b hb
  have hdc := numericIdent_digits c hc
  have hJc := prereleaseIdent_chars J hJ
  have hchar : ∀ x ∈ a ++ '.' :: (b ++ '.' :: (c ++ '-' :: J)),
      x.isDigit = true ∨ x = '.' ∨ x = '-' ∨ isIdentChar x = true := by
    intro x hx
    rcases List.mem_append.mp hx with h | h
    · exact Or.inl (hda x h)
    · rcases List.mem_cons.mp h with h | h
      · exact Or.inr (Or.inl h)
      · rcases List.mem_append.mp h with h | h
        · exact Or.inl (hdb x h)
        · rcases List.mem_cons.mp h with h | h
          · exact Or.inr (Or.inl h)
          · rcases List.mem_append.mp h with h | h
            · exact Or.inl (hdc x h)
            · rcases List.mem_cons.mp h with h | h
              · exact Or.inr (Or.inr (Or.inl h))
              · exact Or.inr (Or.inr (Or.inr (hJc x h)))
  have hplus : '+' ∉ a ++ '.' :: (b ++ '.' :: (c ++ '-' :: J)) := by
    intro hm
    rcases hchar _ hm with h | h | h | h
    · exact absurd h (by decide)
    · exact absurd h (by decide)
    · exact absurd h (by decide)
    · exact absurd h (by decide)
  have hreshape : a ++ '.' :: (b ++ '.' :: (c ++ '-' :: J)) =
      (a ++ '.' :: (b ++ '.' :: c)) ++ '-' :: J := by
    simp [List.append_assoc]
  have hmminus : '-' ∉ a ++ '.' :: (b ++ '.' :: c) := by
    intro hm
    rcases List.mem_append.mp hm with h | h
    · exact (digitChar_ne _ (hda _ h)).2.1 rfl
    · rcases List.mem_cons.mp h with h | h
      · exact absurd h (by decide)
      · rcases List.mem_append.mp h with h | h
        · exact (digitChar_ne _ (hdb _ h)).2.1 rfl
        · rcases List.mem_cons.mp h with h | h
          · exact absurd h (by decide)
          · exact (digitChar_ne _ (hdc _ h)).2.1 rfl
  have hsJ : splitOnListChar '.' J = [J] :=
    splitOnListChar_not_mem '.' J fun hm => (identChar_ne _ (hJc _ hm)).1 rfl
  have hs3 : splitOnListChar '.' (a ++ '.' :: (b ++ '.' :: c)) = [a, b, c] := by
    rw [splitOnListChar_append '.' a _ (fun hm => (digitChar_ne _ (hda _ hm)).1 rfl),
      splitOnListChar_append '.' b c (fun hm => (digitChar_ne _ (hdb _ hm)).1 rfl),
      splitOnListChar_not_mem '.' c (fun hm => (digitChar_ne _ (hdc _ hm)).1 rfl)]
  have hfirst : splitAtFirstChar '-' (a ++ '.' :: (b ++ '.' :: (c ++ '-' :: J))) =
      (a ++ '.' :: (b ++ '.' :: c), some J) := by
    rw [hreshape]
    exact splitAtFirstChar_append '-' _ J hmminus
  simp [parseSemV, splitAtFirstChar_not_mem _ _ hplus, hfirst, hs3, hsJ, ha, hb, hc, hJ]

theorem hackBadSemver_split (s : String) (a b c : List Char) (rest : List (List Char))
    (hsplit : splitOnListChar '.' s.data = a :: b :: c :: rest) :
    hackBadSemver s =
      ⟨joinWithChar '.'
        (([a, b, if rest.isEmpty then c else c ++ '-' :: joinWithChar '-' rest]).filter
          fun t => !t.isEmpty)⟩ := by
  unfold hackBadSemver
  rw [hsplit]
  cases rest <;> simp [List.filterMap]

theorem prereleaseIdent_join (r : List Char) (rest : List (List Char))
    (hall : ∀ x ∈ r :: rest, prereleaseIdent x = true) :
    prereleaseIdent (joinWithChar '-' (r :: rest)) = true := by
  cases rest with
  | nil => exact hall r (by simp)
  | cons r2 rs2 =>
    rw [joinWithChar_cons2]
    have hmem : '-' ∈ r ++ '-' :: joinWithChar '-' (r2 :: rs2) := by simp
    simp only [prereleaseIdent, Bool.and_eq_true]
    refine ⟨⟨?_, ?_⟩, ?_⟩
    · simp [List.isEmpty_eq_false]
    · rw [List.all_eq_true]
      intro x hx
      rcases List.mem_append.mp hx with h | h
      · exact prereleaseIdent_chars r (hall r (by simp)) x h
      · rcases List.mem_cons.mp h with h | h
        · subst h; decide
        · rcases mem_joinWithChar '-' (r2 :: rs2) x h with h | ⟨g, hg, hxg⟩
          · subst h; decide
          · exact prereleaseIdent_chars g (hall g (List.mem_cons_of_mem r hg)) x hxg
    · cases hAD : (r ++ '-' :: joinWithChar '-' (r2 :: rs2)).all (·.isDigit) with
      | false => simp
      | true => exact absurd (List.all_eq_true.mp hAD '-' hmem) (by decide)

/-- C6 (amended): when the raw string has at least three dotted
components, the first three numeric identifiers and every further
component a valid prerelease identifier, the output of normalize is a
valid semantic version; a raw string of exactly three numeric
components (major.minor.patch) is returned unchanged. -/
theorem normalizeC6_valid :
    ∀ (s : String) (a b c : List Char) (rest : List (List Char)),
      splitOnListChar '.' s.data = a :: b :: c :: rest →
      numericIdent a = true → numericIdent b = true → numericIdent c = true →
      (∀ r ∈ rest, prereleaseIdent r = true) →
      semverValid (hackBadSemver s) = true ∧ (rest = [] → hackBadSemver s = s) := by
  intro s a b c rest hsplit ha hb hc hrest
  have hea : a.isEmpty = false := by simp [List.isEmpty_eq_false, numericIdent_ne_nil a ha]
  have heb : b.isEmpty = false := by simp [List.isEmpty_eq_false, numericIdent_ne_nil b hb]
  have hec : c.isEmpty = false := by simp [List.isEmpty_eq_false, numericIdent_ne_nil c hc]
  cases rest with
  | nil =>
    have heq : hackBadSemver s = ⟨a ++ '.' :: (b ++ '.' :: c)⟩ := by
      rw [hackBadSemver_split s a b c [] hsplit]
      simp [List.filter_cons, hea, heb, hec, joinWithChar_cons2, joinWithChar]
    constructor
    · rw [heq]
      simp [semverValid, parseSemV_main_only a b c ha hb hc]
    · intro _
      rw [heq]
      have h2 := joinWithChar_splitOnListChar '.' s.data
      rw [hsplit, joinWithChar_cons2, joinWithChar_cons2] at h2
      simp only [joinWithChar] at h2
      rw [h2]
  | cons r rs =>
    have hne : (c ++ '-' :: joinWithChar '-' (r :: rs)).isEmpty = false := by
      simp [List.isEmpty_eq_false]
    have heq : hackBadSemver s =
        ⟨a ++ '.' :: (b ++ '.' :: (c ++ '-' :: joinWithChar '-' (r :: rs)))⟩ := by
      rw [hackBadSemver_split s a b c (r :: rs) hsplit]
      simp [List.filter_cons, hea, heb, hne, joinWithChar_cons2, joinWithChar]
    constructor
    · rw [heq]
      simp [semverValid,
        parseSemV_with_pre a b c _ ha hb hc (prereleaseIdent_join r rs hrest)]
    · intro h
      cases h

/-- Claim C6 as stated is false: the two-component string `1.6` has
only non-empty dotted components, yet its normalization (unchanged,
`1.6`) is not a valid semantic version -- this is what makes the
firmware sort of a scan throw on such directory names. -/
theorem counterexampleC6_two_components :
    hackBadSemver "1.6" = "1.6" ∧ semverValid (hackBadSemver "1.6") = false := by
  decide

/-- Witness for the amended C6 at `1.6.1.9`. -/
theorem normalizeC6_valid_witness :
    semverValid (hackBadSemver "1.6.1.9") = true ∧
      ([['9']] = ([] : List (List Char)) → hackBadSemver "1.6.1.9" = "1.6.1.9") :=
  normalizeC6_valid "1.6.1.9" ['1'] ['6'] ['1'] [['9']] (by decide) (by decide) (by decide)
    (by decide) (by decide)

/-! ## Comparator law instances and sort facts

The comparators the source passes to `Array.prototype.sort` are total
preorders; these lemmas establish the `CmpLaws` kit for each and the
`Pairwise` shape of the sorted lists, used for claim C2. -/

theorem cmpLaws_pullback {f : β → β → Ordering} (hf : CmpLaws f) (k : α → β) :
    CmpLaws (fun a b => f (k a) (k b)) :=
  ⟨fun _ => hf.refl _, fun _ _ => hf.swap _ _, fun _ _ _ => hf.lt_trans _ _ _,
   fun _ _ _ h => hf.eq_left _ _ _ h⟩

theorem cmpLaws_cmpNat : CmpLaws cmpNat := by
  constructor
  · intro a
    simp [cmpNat]
  · intro a b
    unfold cmpNat
    split_ifs <;> first | rfl | omega
  · intro a b c h1 h2
    unfold cmpNat at h1 h2 ⊢
    split_ifs at h1 h2 ⊢ <;> first | rfl | omega
  · intro a b x h
    unfold cmpNat at h ⊢
    split_ifs at h ⊢ <;> first | rfl | omega

theorem CmpLaws.eq_right {f : α → α → Ordering} (hf : CmpLaws f) (a b x : α)
    (h : f a b = .eq) : f x a = f x b := by
  have h2 : f b a = .eq := by rw [hf.swap, h]; rfl
  rw [hf.swap a x, hf.swap b x, hf.eq_left a b x h]

theorem CmpLaws.lt_of_lt_of_eq {f : α → α → Ordering} (hf : CmpLaws f) (a b c : α)
    (h1 : f a b = .lt) (h2 : f b c = .eq) : f a c = .lt := by
  rw [← hf.eq_right b c a h2]
  exact h1

theorem CmpLaws.lt_of_eq_of_lt {f : α → α → Ordering} (hf : CmpLaws f) (a b c : α)
    (h1 : f a b = .eq) (h2 : f b c = .lt) : f a c = .lt := by
  rw [hf.eq_left a b c h1]
  exact h2

theorem CmpLaws.eq_trans {f : α → α → Ordering} (hf : CmpLaws f) (a b c : α)
    (h1 : f a b = .eq) (h2 : f b c = .eq) : f a c = .eq := by
  rw [hf.eq_left a b c h1]
  exact h2

theorem CmpLaws.le_trans {f : α → α → Ordering} (hf : CmpLaws f) (a b c : α)
    (h1 : f a b ≠ .gt) (h2 : f b c ≠ .gt) : f a c ≠ .gt := by
  cases hab : f a b with
  | gt => exact absurd hab h1
  | lt =>
    cases hbc : f b c with
    | gt => exact absurd hbc h2
    | lt => rw [hf.lt_trans a b c hab hbc]; decide
    | eq => rw [hf.lt_of_lt_of_eq a b c hab hbc]; decide
  | eq =>
    cases hbc : f b c with
    | gt => exact absurd hbc h2
    | lt => rw [hf.lt_of_eq_of_lt a b c hab hbc]; decide
    | eq => rw [hf.eq_trans a b c hab hbc]; decide

theorem CmpLaws.total {f : α → α → Ordering} (hf : CmpLaws f) (a b : α) :
    f a b ≠ .gt ∨ f b a ≠ .gt := by
  cases hab : f a b with
  | gt =>
    right
    rw [hf.swap a b, hab]
    decide
  | lt => exact Or.inl (by simp)
  | eq => exact Or.inl (by simp)

theorem CmpLaws.not_gt_iff {f : α → α → Ordering} (hf : CmpLaws f) (a b : α) :
    f a b ≠ .gt ↔ f b a ≠ .lt := by
  rw [hf.swap a b]
  cases f a b <;> decide

theorem CmpLaws.ge_refl {f : α → α → Ordering} (hf : CmpLaws f) (a : α) :
    f a a ≠ .lt := by
  rw [hf.refl a]
  decide

theorem cmpLaws_lexThen {g h : α → α → Ordering} (hg : CmpLaws g) (hh : CmpLaws h) :
    CmpLaws (lexThen g h) := by
  constructor
  · intro a
    simp [lexThen, hg.refl, hh.refl]
  · intro a b
    unfold lexThen
    rw [hg.swap a b, hh.swap a b]
    cases g a b <;> rfl
  · intro a b c h1 h2
    unfold lexThen at h1 h2 ⊢
    cases hab : g a b with
    | gt =>
      rw [hab] at h1
      simp at h1
    | lt =>
      cases hbc : g b c with
      | gt =>
        rw [hbc] at h2
        simp at h2
      | lt => rw [hg.lt_trans a b c hab hbc]
      | eq => rw [hg.lt_of_lt_of_eq a b c hab hbc]
    | eq =>
      cases hbc : g b c with
      | gt =>
        rw [hbc] at h2
        simp at h2
      | lt => rw [hg.lt_of_eq_of_lt a b c hab hbc]
      | eq =>
        rw [hg.eq_trans a b c hab hbc]
        rw [hab] at h1
        rw [hbc] at h2
        exact hh.lt_trans a b c h1 h2
  · intro a b x hab
    unfold lexThen at hab ⊢
    cases hg1 : g a b with
    | gt =>
      rw [hg1] at hab
      simp at hab
    | lt =>
      rw [hg1] at hab
      simp at hab
    | eq =>
      rw [hg1] at hab
      rw [hg.eq_left a b x hg1, hh.eq_left a b x hab]

theorem cmpLaws_cmpLex {f : α → α → Ordering} (hf : CmpLaws f) : CmpLaws (cmpLex f) := by
  constructor
  · intro a
    induction a with
    | nil => rfl
    | cons x xs ih => simp [cmpLex, hf.refl, ih]
  · intro a b
    induction a generalizing b with
    | nil => cases b <;> rfl
    | cons x xs ih =>
      cases b with
      | nil => rfl
      | cons y ys =>
        simp only [cmpLex]
        rw [hf.swap x y]
        cases f x y with
        | eq => simpa using ih ys
        | lt => rfl
        | gt => rfl
  · intro a b c h1 h2
    induction a generalizing b c with
    | nil =>
      cases b with
      | nil => exact absurd h1 (by simp [cmpLex])
      | cons y ys =>
        cases c with
        | nil => exact absurd h2 (by simp [cmpLex])
        | cons z zs => rfl
    | cons x xs ih =>
      cases b with
      | nil => exact absurd h1 (by simp [cmpLex])
      | cons y ys =>
        cases c with
        | nil => exact absurd h2 (by simp [cmpLex])
        | cons z zs =>
          simp only [cmpLex] at h1 h2 ⊢
          cases hxy : f x y with
          | gt =>
            rw [hxy] at h1
            simp at h1
          | lt =>
            cases hyz : f y z with
            | gt =>
              rw [hyz] at h2
              simp at h2
            | lt => rw [hf.lt_trans x y z hxy hyz]
            | eq => rw [hf.lt_of_lt_of_eq x y z hxy hyz]
          | eq =>
            cases hyz : f y z with
            | gt =>
              rw [hyz] at h2
              simp at h2
            | lt => rw [hf.lt_of_eq_of_lt x y z hxy hyz]
            | eq =>
              rw [hf.eq_trans x y z hxy hyz]
              rw [hxy] at h1
              rw [hyz] at h2
              exact ih ys zs h1 h2
  · intro a b x hab
    induction a generalizing b x with
    | nil =>
      cases b with
      | nil => rfl
      | cons y ys => exact absurd hab (by simp [cmpLex])
    | cons u us ih =>
      cases b with
      | nil => exact absurd hab (by simp [cmpLex])
      | cons y ys =>
        simp only [cmpLex] at hab ⊢
        cases huy : f u y with
        | gt =>
          rw [huy] at hab
          simp at hab
        | lt =>
          rw [huy] at hab
          simp at hab
        | eq =>
          rw [huy] at hab
          cases x with
          | nil => rfl
          | cons z zs =>
            simp only [cmpLex]
            rw [hf.eq_left u y z huy]
            cases f y z with
            | eq => exact ih ys zs hab
            | lt => rfl
            | gt => rfl

theorem cmpLaws_cmpChar : CmpLaws cmpChar :=
  cmpLaws_pullback cmpLaws_cmpNat Char.toNat

theorem cmpLaws_cmpIdent : CmpLaws cmpIdent := by
  have hch := cmpLaws_cmpLex cmpLaws_cmpChar
  constructor
  · intro a
    by_cases hd : a.all (·.isDigit) <;>
      simp [cmpIdent, hd, cmpLaws_cmpNat.refl, hch.refl]
  · intro a b
    unfold cmpIdent
    by_cases ha : a.all (·.isDigit) <;> by_cases hb : b.all (·.isDigit) <;>
      simp -failIfUnchanged [ha, hb] <;>
      first
      | exact cmpLaws_cmpNat.swap _ _
      | exact hch.swap _ _
      | rfl
  · intro a b c h1 h2
    unfold cmpIdent at h1 h2 ⊢
    by_cases ha : a.all (·.isDigit) <;> by_cases hb : b.all (·.isDigit) <;>
      by_cases hc : c.all (·.isDigit) <;>
      simp -failIfUnchanged [ha, hb, hc] at h1 h2 ⊢ <;>
      first
      | rfl
      | exact cmpLaws_cmpNat.lt_trans _ _ _ h1 h2
      | exact hch.lt_trans _ _ _ h1 h2
  · intro a b x hab
    unfold cmpIdent at hab ⊢
    by_cases ha : a.all (·.isDigit) <;> by_cases hb : b.all (·.isDigit) <;>
      by_cases hx : x.all (·.isDigit) <;>
      simp -failIfUnchanged [ha, hb, hx] at hab ⊢ <;>
      first
      | rfl
      | exact cmpLaws_cmpNat.eq_left _ _ _ hab
      | exact hch.eq_left _ _ _ hab

theorem cmpLaws_cmpPre : CmpLaws cmpPre := by
  have hL := cmpLaws_cmpLex cmpLaws_cmpIdent
  have hPL : CmpLaws cmpPreList := hL
  constructor
  · intro a
    unfold cmpPre
    cases ha : a.isEmpty <;> simp [hPL.refl]
  · intro a b
    unfold cmpPre
    cases ha : a.isEmpty <;> cases hb : b.isEmpty <;> simp [hPL.swap a b] <;> rfl
  · intro a b c h1 h2
    unfold cmpPre at h1 h2 ⊢
    cases ha : a.isEmpty <;> cases hb : b.isEmpty <;> cases hc : c.isEmpty <;>
      rw [ha, hb] at h1 <;> rw [hb, hc] at h2 <;>
      simp -failIfUnchanged at h1 h2 <;>
      first
      | rfl
      | exact hPL.lt_trans _ _ _ h1 h2
  · intro a b x hab
    unfold cmpPre at hab ⊢
    cases ha : a.isEmpty <;> cases hb : b.isEmpty <;>
      rw [ha, hb] at hab <;> simp -failIfUnchanged at hab <;>
      cases hx : x.isEmpty <;>
      first
      | rfl
      | exact hPL.eq_left _ _ _ hab

theorem cmpSemV_eq_lexThen :
    cmpSemV = lexThen (fun a b => cmpNat a.major b.major)
      (lexThen (fun a b => cmpNat a.minor b.minor)
        (lexThen (fun a b => cmpNat a.patch b.patch) fun a b => cmpPre a.pre b.pre)) := by
  funext a b
  unfold cmpSemV lexThen
  rfl

theorem cmpLaws_cmpSemV : CmpLaws cmpSemV := by
  rw [cmpSemV_eq_lexThen]
  exact cmpLaws_lexThen (cmpLaws_pullback cmpLaws_cmpNat _)
    (cmpLaws_lexThen (cmpLaws_pullback cmpLaws_cmpNat _)
      (cmpLaws_lexThen (cmpLaws_pullback cmpLaws_cmpNat _)
        (cmpLaws_pullback cmpLaws_cmpPre _)))

theorem cmpLaws_semvCmpStr : CmpLaws semvCmpStr :=
  cmpLaws_pullback cmpLaws_cmpSemV parseSemVD

theorem cmpLaws_fwCmp :
    CmpLaws fun a b : FwDirT => semvCmpStr (hackBadSemver a.1) (hackBadSemver b.1) := by
  have h := cmpLaws_pullback cmpLaws_semvCmpStr fun e : FwDirT => hackBadSemver e.1
  exact h

theorem cmpLaws_verCmp :
    CmpLaws fun a b : AppCandidate => semvCmpStr a.appVersion b.appVersion := by
  have h := cmpLaws_pullback cmpLaws_semvCmpStr fun c : AppCandidate => c.appVersion
  exact h

theorem insertionSort_fw_pairwise (l : List FwDirT) :
    (List.insertionSort fwLe l).Pairwise fwLe := by
  haveI : IsTotal FwDirT fwLe := ⟨fun a b => cmpLaws_fwCmp.total a b⟩
  haveI : IsTrans FwDirT fwLe := ⟨fun a b c => cmpLaws_fwCmp.le_trans a b c⟩
  exact List.sorted_insertionSort fwLe l

theorem insertionSort_ver_pairwise (l : List AppCandidate) :
    (List.insertionSort verLe l).Pairwise verLe := by
  haveI : IsTotal AppCandidate verLe := ⟨fun a b => cmpLaws_verCmp.total a b⟩
  haveI : IsTrans AppCandidate verLe := ⟨fun a b c => cmpLaws_verCmp.le_trans a b c⟩
  exact List.sorted_insertionSort verLe l

theorem insertionSort_prio_pairwise (l : List (ModelDirT × Nat)) :
    (List.insertionSort prioGe l).Pairwise prioGe := by
  haveI : IsTotal (ModelDirT × Nat) prioGe := ⟨fun a b => Nat.le_total b.2 a.2⟩
  haveI : IsTrans (ModelDirT × Nat) prioGe := ⟨fun a b c h1 h2 => Nat.le_trans h2 h1⟩
  exact List.sorted_insertionSort prioGe l

theorem elfToCandidate_fields {p3 mid fw app elf : String} {x : AppCandidate}
    (h : elfToCandidate p3 mid fw app elf = some x) :
    x.model = mid ∧ x.firmware = fw ∧ x.appName = app ∧ semverValid x.appVersion = true := by
  simp only [elfToCandidate] at h
  split_ifs at h with h1 h2
  · rw [Option.some_inj] at h
    subst h
    exact ⟨rfl, rfl, rfl, h2⟩

theorem elfCandidates_fields {p3 mid fw app : String} {elfs : List String} {x : AppCandidate}
    (h : x ∈ elfCandidates p3 mid fw app elfs) :
    x.model = mid ∧ x.firmware = fw ∧ x.appName = app ∧ semverValid x.appVersion = true := by
  unfold elfCandidates at h
  rw [List.mem_reverse] at h
  rw [(List.perm_insertionSort verLe _).mem_iff] at h
  rcases List.mem_filterMap.mp h with ⟨elf, _, hsome⟩
  exact elfToCandidate_fields hsome

theorem semvGeStr_refl (s : String) : semvGeStr s s :=
  cmpLaws_semvCmpStr.ge_refl s

theorem semvGeStr_of_not_gt {a b : String} (h : semvCmpStr b a ≠ .gt) : semvGeStr a b :=
  (cmpLaws_semvCmpStr.not_gt_iff b a).mp h

theorem scanFollows_same_model {x y : AppCandidate} (hm : x.model = y.model)
    (hfw : semvGeStr (hackBadSemver x.firmware) (hackBadSemver y.firmware))
    (hv : x.firmware = y.firmware → x.appName = y.appName →
      semvGeStr x.appVersion y.appVersion) :
    scanFollows x y := by
  refine ⟨?_, fun _ => hfw, fun _ => hv⟩
  rw [candPriority, candPriority, hm]

theorem elfCandidates_pairwise (p3 mid fw app : String) (elfs : List String) :
    (elfCandidates p3 mid fw app elfs).Pairwise scanFollows := by
  unfold elfCandidates
  have h1 : (List.insertionSort verLe
      (elfs.filterMap (elfToCandidate p3 mid fw app))).reverse.Pairwise
        fun a b => verLe b a :=
    List.pairwise_reverse.mpr (insertionSort_ver_pairwise _)
  refine List.Pairwise.imp_of_mem ?_ h1
  intro a b ha hb hba
  have hfa := elfCandidates_fields (show a ∈ elfCandidates p3 mid fw app elfs from ha)
  have hfb := elfCandidates_fields (show b ∈ elfCandidates p3 mid fw app elfs from hb)
  refine scanFollows_same_model (by rw [hfa.1, hfb.1]) ?_ ?_
  · rw [hfa.2.1, hfb.2.1]
    exact semvGeStr_refl _
  · intro _ _
    exact semvGeStr_of_not_gt hba

theorem firmwareBlock_fields {p2 mid fw : String} {apps : List AppDirT} {x : AppCandidate}
    (h : x ∈ firmwareBlock p2 mid fw apps) :
    x.model = mid ∧ x.firmware = fw ∧ ∃ a ∈ apps, x.appName = a.1 := by
  unfold firmwareBlock at h
  rcases List.mem_flatten.mp h with ⟨l2, hl2, hx⟩
  rcases List.mem_map.mp hl2 with ⟨a, ha, rfl⟩
  have hf := elfCandidates_fields hx
  exact ⟨hf.1, hf.2.1, a, ha, hf.2.2.1⟩

theorem nodup_map_pairwise {l : List α} {f : α → β} (h : (l.map f).Nodup) :
    l.Pairwise fun a b => f a ≠ f b :=
  (List.pairwise_map).mp h

theorem firmwareBlock_pairwise (p2 mid fw : String) (apps : List AppDirT)
    (hnodup : (apps.map fun a => a.1).Nodup) :
    (firmwareBlock p2 mid fw apps).Pairwise scanFollows := by
  unfold firmwareBlock
  rw [List.pairwise_flatten]
  constructor
  · intro l2 hl2
    rcases List.mem_map.mp hl2 with ⟨a, _, rfl⟩
    exact elfCandidates_pairwise _ _ _ _ _
  · rw [List.pairwise_map]
    refine (nodup_map_pairwise hnodup).imp ?_
    intro a1 a2 hne x hx y hy
    have hfx := elfCandidates_fields hx
    have hfy := elfCandidates_fields hy
    refine scanFollows_same_model (by rw [hfx.1, hfy.1]) ?_ ?_
    · rw [hfx.2.1, hfy.2.1]
      exact semvGeStr_refl _
    · intro _ happ
      rw [hfx.2.2.1, hfy.2.2.1] at happ
      exact absurd happ hne

theorem modelEntryBlock_fields {cwd : String} {e : ModelDirT} {x : AppCandidate}
    (h : x ∈ modelEntryBlock cwd e) :
    x.model = (modelMap (lowerStr e.1)).getD "" := by
  unfold modelEntryBlock at h
  rcases List.mem_flatten.mp h with ⟨l2, hl2, hx⟩
  rcases List.mem_map.mp hl2 with ⟨fw, _, rfl⟩
  exact (firmwareBlock_fields hx).1

theorem modelEntryBlock_pairwise (cwd : String) (e : ModelDirT)
    (hf : (e.2.map fun f => f.1).Nodup)
    (ha : ∀ f ∈ e.2, (f.2.map fun a => a.1).Nodup) :
    (modelEntryBlock cwd e).Pairwise scanFollows := by
  unfold modelEntryBlock
  rw [List.pairwise_flatten]
  have hperm : (List.insertionSort fwLe e.2).reverse.Perm e.2 :=
    (List.reverse_perm _).trans (List.perm_insertionSort fwLe e.2)
  constructor
  · intro l2 hl2
    rcases List.mem_map.mp hl2 with ⟨fw, hfw, rfl⟩
    exact firmwareBlock_pairwise _ _ _ _ (ha fw (hperm.mem_iff.mp hfw))
  · rw [List.pairwise_map]
    have hsorted : (List.insertionSort fwLe e.2).reverse.Pairwise fun f1 f2 => fwLe f2 f1 :=
      List.pairwise_reverse.mpr (insertionSort_fw_pairwise e.2)
    have hnames : (List.insertionSort fwLe e.2).reverse.Pairwise fun f1 f2 => f1.1 ≠ f2.1 := by
      refine nodup_map_pairwise ?_
      rw [(hperm.map fun f => f.1).nodup_iff]
      exact hf
    refine (hsorted.and hnames).imp ?_
    intro f1 f2 hh x hx y hy
    obtain ⟨hle, hne⟩ := hh
    have hfx := firmwareBlock_fields hx
    have hfy := firmwareBlock_fields hy
    refine scanFollows_same_model (by rw [hfx.1, hfy.1]) ?_ ?_
    · rw [hfx.2.1, hfy.2.1]
      exact semvGeStr_of_not_gt hle
    · intro hfweq _
      rw [hfx.2.1, hfy.2.1] at hfweq
      exact absurd hfweq hne

theorem retainedModels_mem {tree : ScanTree} {e : ModelDirT × Nat}
    (h : e ∈ retainedModels tree) :
    e.1 ∈ tree ∧ modelMapPriority (lowerStr e.1.1) = some e.2 := by
  unfold retainedModels at h
  rw [(List.perm_insertionSort prioGe _).mem_iff] at h
  rcases List.mem_filterMap.mp h with ⟨m, hm, hsome⟩
  cases hp : modelMapPriority (lowerStr m.1) with
  | none =>
    rw [hp] at hsome
    exact absurd hsome (by simp)
  | some p =>
    rw [hp] at hsome
    by_cases h0 : p = 0
    · rw [Option.some_bind, if_pos h0] at hsome
      exact absurd hsome (by simp)
    · rw [Option.some_bind, if_neg h0] at hsome
      rw [Option.some_inj] at hsome
      subst hsome
      exact ⟨hm, hp⟩

theorem modelMapPriority_cases {s : String} {p : Nat}
    (h : modelMapPriority s = some p) :
    s = "nanos" ∨ s = "nanox" ∨ s = "blue" := by
  unfold modelMapPriority at h
  split_ifs at h with h1 h2 h3
  · exact Or.inl h1
  · exact Or.inr (Or.inl h2)
  · exact Or.inr (Or.inr h3)

theorem modelTable_consistent {s : String} {p : Nat}
    (h : modelMapPriority s = some p) :
    modelMapPriority (lowerStr ((modelMap s).getD "")) = some p := by
  rcases modelMapPriority_cases h with rfl | rfl | rfl <;>
    rw [← h] <;> decide

theorem modelTable_inj {s1 s2 : String} {p1 p2 : Nat}
    (h1 : modelMapPriority s1 = some p1) (h2 : modelMapPriority s2 = some p2)
    (hne : s1 ≠ s2) : (modelMap s1).getD "" ≠ (modelMap s2).getD "" := by
  rcases modelMapPriority_cases h1 with rfl | rfl | rfl <;>
    rcases modelMapPriority_cases h2 with rfl | rfl | rfl <;>
    first
    | exact absurd rfl hne
    | decide

theorem listAppCandidates_ok_eq {cwd : String} {tree : ScanTree} {L : List AppCandidate}
    (h : listAppCandidates cwd tree = .ok L) :
    L = ((retainedModels tree).map fun e => modelEntryBlock cwd e.1).flatten := by
  simp only [listAppCandidates] at h
  split_ifs at h with hc
  rw [Except.ok.injEq] at h
  exact h.symm

theorem retainedEntry_fst {m : ModelDirT} {e : ModelDirT × Nat}
    (h : ((modelMapPriority (lowerStr m.1)).bind fun p =>
      if p = 0 then none else some (m, p)) = some e) : e.1 = m := by
  cases hp : modelMapPriority (lowerStr m.1) with
  | none =>
    rw [hp] at h
    exact absurd h (by simp)
  | some p =>
    rw [hp] at h
    by_cases h0 : p = 0
    · rw [Option.some_bind, if_pos h0] at h
      exact absurd h (by simp)
    · rw [Option.some_bind, if_neg h0, Option.some_inj] at h
      rw [← h]

theorem retainedModels_pairwise_ne {tree : ScanTree}
    (hm : (tree.map fun e => lowerStr e.1).Nodup) :
    (retainedModels tree).Pairwise fun e1 e2 => lowerStr e1.1.1 ≠ lowerStr e2.1.1 := by
  unfold retainedModels
  have hperm := List.perm_insertionSort prioGe (tree.filterMap fun e =>
    (modelMapPriority (lowerStr e.1)).bind fun p => if p = 0 then none else some (e, p))
  rw [hperm.pairwise_iff fun {a b} h => fun heq => h heq.symm]
  rw [List.pairwise_filterMap]
  have htree : tree.Pairwise fun m1 m2 => lowerStr m1.1 ≠ lowerStr m2.1 :=
    nodup_map_pairwise hm
  refine htree.imp ?_
  intro m1 m2 hne e1 he1 e2 he2
  rw [Option.mem_def] at he1 he2
  rw [retainedEntry_fst he1, retainedEntry_fst he2]
  exact hne

set_option maxHeartbeats 2000000 in
/-- C2 (amended): for every directory tree whose first-level names are
distinct after lower-casing, whose per-model firmware listings and
per-firmware application listings are duplicate-free (as `readdir`
guarantees), a successful scan is ordered by model priority, then by
descending normalized firmware within a model, then by descending
version within a model/firmware/application; and on the fixture with
valid firmware names `1.6.0`, `2.0.0` the scan returns exactly the
claimed sequence. -/
theorem scanC2_ordering :
    (∀ (cwd : String) (tree : ScanTree),
      (tree.map fun e => lowerStr e.1).Nodup →
      (∀ m ∈ tree, (m.2.map fun f => f.1).Nodup) →
      (∀ m ∈ tree, ∀ f ∈ m.2, (f.2.map fun a => a.1).Nodup) →
      ∀ L, listAppCandidates cwd tree = .ok L → scanOrdered L) ∧
    listAppCandidates "coinapps" fixtureAmendedC2 =
      .ok [⟨"coinapps/nanos/2.0.0/bitcoin/app_1.3.1.elf", "nanoS", "2.0.0", "bitcoin", "1.3.1"⟩,
           ⟨"coinapps/nanos/2.0.0/bitcoin/app_1.2.0.elf", "nanoS", "2.0.0", "bitcoin", "1.2.0"⟩,
           ⟨"coinapps/nanos/1.6.0/bitcoin/app_1.3.1.elf", "nanoS", "1.6.0", "bitcoin", "1.3.1"⟩,
           ⟨"coinapps/nanos/1.6.0/bitcoin/app_1.2.0.elf", "nanoS", "1.6.0", "bitcoin", "1.2.0"⟩,
           ⟨"coinapps/nanox/2.0.0/bitcoin/app_1.3.1.elf", "nanoX", "2.0.0", "bitcoin", "1.3.1"⟩,
           ⟨"coinapps/nanox/2.0.0/bitcoin/app_1.2.0.elf", "nanoX", "2.0.0", "bitcoin", "1.2.0"⟩,
           ⟨"coinapps/nanox/1.6.0/bitcoin/app_1.3.1.elf", "nanoX", "1.6.0", "bitcoin", "1.3.1"⟩,
           ⟨"coinapps/nanox/1.6.0/bitcoin/app_1.2.0.elf", "nanoX", "1.6.0", "bitcoin", "1.2.0"⟩] := by
  constructor
  · intro cwd tree hm hf ha L hok
    rw [scanOrdered, listAppCandidates_ok_eq hok, List.pairwise_flatten]
    constructor
    · intro l2 hl2
      rcases List.mem_map.mp hl2 with ⟨e, he, rfl⟩
      have hmem := retainedModels_mem he
      exact modelEntryBlock_pairwise cwd e.1 (hf e.1 hmem.1) (ha e.1 hmem.1)
    · rw [List.pairwise_map]
      have hprio : (retainedModels tree).Pairwise prioGe := insertionSort_prio_pairwise _
      have hne := retainedModels_pairwise_ne hm
      refine (hprio.and hne).imp_of_mem ?_
      intro e1 e2 he1 he2 hh x hx y hy
      obtain ⟨hp, hlne⟩ := hh
      have hm1 := retainedModels_mem he1
      have hm2 := retainedModels_mem he2
      have hx1 := modelEntryBlock_fields hx
      have hy1 := modelEntryBlock_fields hy
      refine ⟨?_, ?_, ?_⟩
      · rw [candPriority, candPriority, hx1, hy1,
          modelTable_consistent hm1.2, modelTable_consistent hm2.2]
        exact hp
      · intro hmod
        rw [hx1, hy1] at hmod
        exact absurd hmod (modelTable_inj hm1.2 hm2.2 hlne)
      · intro hmod _ _
        rw [hx1, hy1] at hmod
        exact absurd hmod (modelTable_inj hm1.2 hm2.2 hlne)
  · rfl

/-- Claim C2 as stated is false on its own fixture: the firmware
directory names `1.6` and `2.0` stay invalid under `hackBadSemver`, so
the firmware sort's `semver.compare` throws and the scan rejects
instead of returning the claimed candidate sequence. -/
theorem counterexampleC2_fixture_throws :
    listAppCandidates "coinapps" fixtureClaimedC2 = .error "Invalid Version" ∧
      listAppCandidates "coinapps" fixtureClaimedC2 ≠
        .ok [⟨"coinapps/nanos/2.0/bitcoin/app_1.3.1.elf", "nanoS", "2.0", "bitcoin", "1.3.1"⟩,
             ⟨"coinapps/nanos/2.0/bitcoin/app_1.2.0.elf", "nanoS", "2.0", "bitcoin", "1.2.0"⟩,
             ⟨"coinapps/nanos/1.6/bitcoin/app_1.3.1.elf", "nanoS", "1.6", "bitcoin", "1.3.1"⟩,
             ⟨"coinapps/nanos/1.6/bitcoin/app_1.2.0.elf", "nanoS", "1.6", "bitcoin", "1.2.0"⟩,
             ⟨"coinapps/nanox/2.0/bitcoin/app_1.3.1.elf", "nanoX", "2.0", "bitcoin", "1.3.1"⟩,
             ⟨"coinapps/nanox/2.0/bitcoin/app_1.2.0.elf", "nanoX", "2.0", "bitcoin", "1.2.0"⟩,
             ⟨"coinapps/nanox/1.6/bitcoin/app_1.3.1.elf", "nanoX", "1.6", "bitcoin", "1.3.1"⟩,
             ⟨"coinapps/nanox/1.6/bitcoin/app_1.2.0.elf", "nanoX", "1.6", "bitcoin", "1.2.0"⟩] := by
  constructor
  · rfl
  · intro h
    rw [show listAppCandidates "coinapps" fixtureClaimedC2 =
      .error "Invalid Version" from rfl] at h
    exact absurd h (by simp)

/-- Witness for the amended C2: the ordering instance on the amended
fixture's scan result. -/
theorem scanC2_ordering_witness :
    scanOrdered
      [⟨"coinapps/nanos/2.0.0/bitcoin/app_1.3.1.elf", "nanoS", "2.0.0", "bitcoin", "1.3.1"⟩,
       ⟨"coinapps/nanos/2.0.0/bitcoin/app_1.2.0.elf", "nanoS", "2.0.0", "bitcoin", "1.2.0"⟩,
       ⟨"coinapps/nanos/1.6.0/bitcoin/app_1.3.1.elf", "nanoS", "1.6.0", "bitcoin", "1.3.1"⟩,
       ⟨"coinapps/nanos/1.6.0/bitcoin/app_1.2.0.elf", "nanoS", "1.6.0", "bitcoin", "1.2.0"⟩,
       ⟨"coinapps/nanox/2.0.0/bitcoin/app_1.3.1.elf", "nanoX", "2.0.0", "bitcoin", "1.3.1"⟩,
       ⟨"coinapps/nanox/2.0.0/bitcoin/app_1.2.0.elf", "nanoX", "2.0.0", "bitcoin", "1.2.0"⟩,
       ⟨"coinapps/nanox/1.6.0/bitcoin/app_1.3.1.elf", "nanoX", "1.6.0", "bitcoin", "1.3.1"⟩,
       ⟨"coinapps/nanox/1.6.0/bitcoin/app_1.2.0.elf", "nanoX", "1.6.0", "bitcoin", "1.2.0"⟩] :=
  scanC2_ordering.1 "coinapps" fixtureAmendedC2 (by decide) (by decide) (by decide) _
    scanC2_ordering.2
